import Mathlib

/-!
Shallow embedding of the mesh graph core of mesh_functions.py.

An undirected mesh graph carries a scalar map value per node.  Scalar
values are modelled by the type Val, which is Option of a rational:
none stands for the floating point NaN marker used by the source, and
some q for a present value.  Python dictionaries keyed by node id are
modelled as association lists kept in insertion order, which is the
iteration order of a Python dict.  A Python call that can raise an
exception is modelled as returning an Option, with none for the raise.
-/

/-- A scalar map value: none models the NaN marker, some q a present value. -/
abbrev Val : Type := Option ℚ

/-- Python comparison a greater than b on map values: any comparison
involving NaN evaluates to False. -/
def vgt : Val → Val → Bool
  | some a, some b => decide (b < a)
  | _, _ => false

/-- Python comparison a less than b on map values: any comparison
involving NaN evaluates to False. -/
def vlt (a b : Val) : Bool := vgt b a

/-- A Python dict from node id to map value, as an association list in
insertion order. -/
abbrev NDict : Type := List (Nat × Val)

/-- Python dict assignment d[k] = v: the value of the first entry with
key k is overwritten in place, or a fresh entry is appended. -/
def dinsert : NDict → Nat → Val → NDict
  | [], k, v => [(k, v)]
  | (k₀, v₀) :: d, k, v =>
    if k = k₀ then (k₀, v) :: d else (k₀, v₀) :: dinsert d k v

/-- Python dict lookup d.get(k): the value of the first entry with key k. -/
def dlookup : NDict → Nat → Option Val
  | [], _ => none
  | (k₀, v₀) :: d, k => if k = k₀ then some v₀ else dlookup d k

/-- The keys of a dict in iteration order. -/
def dkeys (d : NDict) : List Nat := d.map Prod.fst

/-- Python dict(zip(keys, vals)): the pairs are inserted in order, a
later pair with an already seen key overwriting the earlier value. -/
def dictOfPairs (l : List (Nat × Val)) : NDict :=
  l.foldl (fun acc kv => dinsert acc kv.1 kv.2) []

/-- Python dict update d.update(d₂): every entry of d₂ is assigned into d. -/
def dupdate (d d₂ : NDict) : NDict :=
  d₂.foldl (fun acc kv => dinsert acc kv.1 kv.2) d

/-- Removes duplicates keeping the first occurrence, with an accumulator
of already seen elements.  This is the order in which a Python dict or
an insertion into a dict of adjacency keeps keys. -/
def dedupFirstAux : List Nat → List Nat → List Nat
  | [], _ => []
  | x :: xs, seen =>
    if x ∈ seen then dedupFirstAux xs seen else x :: dedupFirstAux xs (x :: seen)

/-- Removes duplicates from a list keeping the first occurrence of each
element. -/
def dedupFirst (l : List Nat) : List Nat := dedupFirstAux l []

/-- The networkx graph as mesh_functions uses it: the node list in
insertion order, the edge list in insertion order, and the map_val node
attribute.  The attribute function models the state after
add_map_to_surface has bound a value to every node; a value of none is
the NaN marker. -/
structure MeshGraph where
  nodeList : List Nat
  edgeList : List (Nat × Nat)
  val : Nat → Val

/-- The neighbours of a node in networkx adjacency order: for each edge
incident to the node, in edge insertion order, the opposite endpoint,
each neighbour listed once at its first occurrence.  This is the
iteration order of G.adj[n].items(). -/
def adjList (G : MeshGraph) (n : Nat) : List Nat :=
  dedupFirst (G.edgeList.foldl (fun acc e =>
    if e.1 = n then acc ++ [e.2]
    else if e.2 = n then acc ++ [e.1] else acc) [])

/-- get_neighbours_and_vals of source lines 98 to 108: for every seed
node, every neighbour together with its map value is appended, and the
pair list is turned into a dict.  G.adj[node] raises KeyError for a
node outside the graph, modelled as none. -/
def get_neighbours_and_vals (G : MeshGraph) (nodes : List Nat) : Option NDict :=
  if ∀ n ∈ nodes, n ∈ G.nodeList then
    some (dictOfPairs (nodes.foldl
      (fun acc n => acc ++ (adjList G n).map (fun m => (m, G.val m))) []))
  else none

/-- The loop of get_multi_neighbours_and_vals: the accumulating dict is
updated with the one hop result of the same seed set on each iteration. -/
def multiAux (G : MeshGraph) (nodes : List Nat) : Nat → NDict → Option NDict
  | 0, acc => some acc
  | k + 1, acc =>
    match get_neighbours_and_vals G nodes with
    | none => none
    | some d => multiAux G nodes k (dupdate acc d)

/-- get_multi_neighbours_and_vals of source lines 111 to 116. -/
def get_multi_neighbours_and_vals (G : MeshGraph) (nodes : List Nat)
    (neighbourhood_size : Nat) : Option NDict :=
  multiAux G nodes neighbourhood_size []

/-- Two oriented edges denote the same unordered pair. -/
def sameEdge (u v : Nat) (e : Nat × Nat) : Prop := e = (u, v) ∨ e = (v, u)

instance (u v : Nat) (e : Nat × Nat) : Decidable (sameEdge u v e) := by
  unfold sameEdge; infer_instance

/-- The graph holds an edge between u and v. -/
def hasEdge (G : MeshGraph) (u v : Nat) : Prop :=
  ∃ e ∈ G.edgeList, sameEdge u v e

instance (G : MeshGraph) (u v : Nat) : Decidable (hasEdge G u v) := by
  unfold hasEdge; infer_instance

/-- No two entries of the edge list denote the same unordered pair: the
multiplicity of every edge is one, as in a networkx adjacency dict. -/
def edgesDistinct (G : MeshGraph) : Prop :=
  G.edgeList.Pairwise (fun e f => ¬ sameEdge e.1 e.2 f)

/-- The empty networkx graph nx.Graph() with no attributes bound; the
attribute function is a placeholder since no claim reads values of a
freshly built graph. -/
def emptyMeshGraph : MeshGraph := ⟨[], [], fun _ => none⟩

/-- networkx add_node: appended to the node list unless already present. -/
def addNode (G : MeshGraph) (n : Nat) : MeshGraph :=
  if n ∈ G.nodeList then G else ⟨G.nodeList ++ [n], G.edgeList, G.val⟩

/-- networkx add_nodes_from. -/
def addNodesFrom (G : MeshGraph) (ns : List Nat) : MeshGraph :=
  ns.foldl addNode G

/-- networkx add_edge: both endpoints become nodes if absent, and the
edge is appended unless the same unordered pair is already present. -/
def addEdge (G : MeshGraph) (u v : Nat) : MeshGraph :=
  let G₁ := addNode (addNode G u) v
  if ∃ e ∈ G₁.edgeList, sameEdge u v e then G₁
  else ⟨G₁.nodeList, G₁.edgeList ++ [(u, v)], G₁.val⟩

/-- networkx add_edges_from. -/
def addEdgesFrom (G : MeshGraph) (es : List (Nat × Nat)) : MeshGraph :=
  es.foldl (fun g e => addEdge g e.1 e.2) G

/-- itertools.combinations(row, 2): the pairs of entries at two distinct
positions, earlier position first, in lexicographic position order. -/
def combinations2 : List Nat → List (Nat × Nat)
  | [] => []
  | x :: xs => (xs.map fun y => (x, y)) ++ combinations2 xs

/-- nifti_to_graph of source lines 28 to 38, on the branch where the
face table and the node set are supplied: the nodes are added first,
then for every face row every pairwise combination is added as an edge. -/
def nifti_to_graph (mesh_faces : List (List Nat)) (nodes_to_add : List Nat) :
    MeshGraph :=
  mesh_faces.foldl (fun g row => addEdgesFrom g (combinations2 row))
    (addNodesFrom emptyMeshGraph nodes_to_add)

/-- Row major flattening of the face table. -/
def flattenFaces (faces : List (List Nat)) : List Nat :=
  faces.foldl (fun acc row => acc ++ row) []

/-- np.unique: the distinct values in ascending order. -/
def np_unique (l : List Nat) : List Nat :=
  (dedupFirst l).insertionSort (· ≤ ·)

/-- The node set computed by load_surface_info, source line 24:
np.unique over the face table. -/
def load_surface_info_nodes (mesh_faces : List (List Nat)) : List Nat :=
  np_unique (flattenFaces mesh_faces)

/-- The graph built from a face table along the usual call path, where
load_surface_info supplies the distinct vertex ids of the table. -/
def builtGraph (mesh_faces : List (List Nat)) : MeshGraph :=
  nifti_to_graph mesh_faces (load_surface_info_nodes mesh_faces)

/-- is_node_on_region_border of source lines 119 to 125.  Source line
124 intersects the neighbour set with the module global label_coords,
not with the region_nodes parameter: the global is undefined in the
module, so the value the ambient scope gives it at call time is passed
here explicitly as labelCoords, and the region_nodes parameter is
received and ignored exactly as in the source. -/
def is_node_on_region_border (G : MeshGraph) (labelCoords : List Nat)
    (region_nodes : List Nat) (node : Nat) : Option Bool :=
  match get_neighbours_and_vals G [node] with
  | none => none
  | some d =>
    let ks := dedupFirst (dkeys d)
    some (decide ((ks.filter (fun m => decide (m ∈ labelCoords))).length < ks.length))

/-- The border predicate as the specification words it: some neighbour
of the node lies outside region_nodes. -/
def is_border_spec (G : MeshGraph) (region_nodes : List Nat) (node : Nat) : Bool :=
  (adjList G node).any (fun m => decide (m ∉ region_nodes))

/-- The loop of find_region_border, keeping the nodes on the border. -/
def findBorderAux (G : MeshGraph) (labelCoords : List Nat) (region : List Nat) :
    List Nat → Option (List Nat)
  | [] => some []
  | n :: ns =>
    match is_node_on_region_border G labelCoords region n with
    | none => none
    | some b =>
      match findBorderAux G labelCoords region ns with
      | none => none
      | some l => some (if b then n :: l else l)

/-- find_region_border of source lines 128 to 135, with the ambient
label_coords value passed explicitly as in is_node_on_region_border. -/
def find_region_border (G : MeshGraph) (labelCoords : List Nat)
    (nodes : List Nat) : Option (List Nat) :=
  findBorderAux G labelCoords nodes nodes

/-- The loop of expand_nodes: on each step the one hop neighbourhood of
the whole accumulated list is appended, neighbours with a NaN value
first dropped when ignore_nans is set. -/
def expandAux (G : MeshGraph) (ignore_nans : Bool) : Nat → List Nat → Option (List Nat)
  | 0, acc => some acc
  | s + 1, acc =>
    match get_neighbours_and_vals G acc with
    | none => none
    | some d =>
      let ks := if ignore_nans then (d.filter (fun kv => kv.2.isSome)).map Prod.fst
                else dkeys d
      expandAux G ignore_nans s (acc ++ ks)

/-- expand_nodes of source lines 143 to 153.  The second component is a
Python set difference whose iteration order is arbitrary; it is
modelled in first occurrence order, and no claim depends on its order. -/
def expand_nodes (G : MeshGraph) (nodes : List Nat) (stepsize : Nat)
    (ignore_nans : Bool) : Option (List Nat × List Nat) :=
  match expandAux G ignore_nans stepsize nodes with
  | none => none
  | some final =>
    some (final, dedupFirst (final.filter (fun n => decide (n ∉ nodes))))

/-- The list object of the caller after a call to expand_nodes: the
statement nodes += neighbours on source line 151 extends the list object
of the caller in place, so after the call the variable of the caller
denotes the first returned list. -/
def expand_nodes_caller_list (G : MeshGraph) (nodes : List Nat) (stepsize : Nat)
    (ignore_nans : Bool) : Option (List Nat) :=
  (expand_nodes G nodes stepsize ignore_nans).map Prod.fst

/-- max_neighbour of source lines 157 to 161.  Python max starts from
the first dict entry and a later entry replaces the current one only
when its value compares greater; max(d, key=d.get) and max(d.values())
walk the same entries with the same comparisons, so they pick the same
position, modelled as one fold over the entry pairs.  On an empty dict
max raises ValueError, modelled as none. -/
def max_neighbour (G : MeshGraph) (node : Nat) (neighbourhood_size : Nat) :
    Option (Nat × Val) :=
  match get_multi_neighbours_and_vals G [node] neighbourhood_size with
  | none => none
  | some [] => none
  | some (kv :: rest) =>
    some (rest.foldl (fun cur y => if vgt y.2 cur.2 then y else cur) kv)

/-- get_node_attributes_as_list of source lines 76 to 85: the guard on
source line 79 replaces an empty node list by all graph nodes; a node
outside the graph raises KeyError, modelled as none.  The map_val
attribute is read through the total attribute function. -/
def get_node_attributes_as_list (G : MeshGraph) (nodes : List Nat) :
    Option (List Val) :=
  let ns := if nodes.isEmpty then G.nodeList else nodes
  if ∀ n ∈ ns, n ∈ G.nodeList then some (ns.map G.val) else none

/-- The loop of nodes_gradient_step over the node and value pairs: each
node is replaced by its maximum neighbour when that neighbour strictly
improves on the own value, NaN comparing False. -/
def gradStepAux (G : MeshGraph) (stepsize : Nat) :
    List (Nat × Val) → Option (List Nat)
  | [] => some []
  | (node, retval) :: rest =>
    match max_neighbour G node stepsize with
    | none => none
    | some mi =>
      match gradStepAux G stepsize rest with
      | none => none
      | some res => some ((if vlt retval mi.2 then mi.1 else node) :: res)

/-- nodes_gradient_step of source lines 166 to 177. -/
def nodes_gradient_step (G : MeshGraph) (nodes : List Nat) (stepsize : Nat) :
    Option (List Nat) :=
  match get_node_attributes_as_list G nodes with
  | none => none
  | some mv => gradStepAux G stepsize (nodes.zip mv)

/-- np.nanmean: the arithmetic mean of the present values, NaN when no
value is present (also for the empty list, where numpy warns and
returns NaN rather than raising). -/
def nanmean (vs : List Val) : Val :=
  let present := vs.filterMap id
  if present.length = 0 then none
  else some (present.sum / (present.length : ℚ))

/-- The possible Python values of the nodes argument of smooth_graph:
None, a list, a tuple, a set or a numpy array of node ids. -/
inductive NodesArg where
  | noneArg : NodesArg
  | listArg : List Nat → NodesArg
  | tupleArg : List Nat → NodesArg
  | setArg : List Nat → NodesArg
  | arrayArg : List Nat → NodesArg

/-- The isinstance(nodes, list) dispatch of source line 182: any value
that is not a Python list is replaced by all graph nodes. -/
def smoothTargets (G : MeshGraph) : NodesArg → List Nat
  | NodesArg.listArg l => l
  | _ => G.nodeList

/-- The replacement value smoothing computes for one node: the nanmean
over the values of its queried neighbourhood. -/
def meanAt (G : MeshGraph) (k : Nat) (m : Nat) : Val :=
  nanmean (((get_multi_neighbours_and_vals G [m] k).getD []).map Prod.snd)

/-- The dict building loop of one smoothing iteration, source lines 187
to 191: every replacement value is computed reading the current graph. -/
def smoothDictAux (G : MeshGraph) (k : Nat) : List Nat → NDict → Option NDict
  | [], acc => some acc
  | n :: ns, acc =>
    match get_multi_neighbours_and_vals G [n] k with
    | none => none
    | some d => smoothDictAux G k ns (dinsert acc n (nanmean (d.map Prod.snd)))

/-- One smoothing iteration of source lines 185 to 192: the dict of
replacement values is built reading only the current graph, then applied
in one batch through nx.set_node_attributes, which silently skips ids
outside the graph. -/
def smooth_pass (G : MeshGraph) (nodes : List Nat) (k : Nat) : Option MeshGraph :=
  match smoothDictAux G k nodes [] with
  | none => none
  | some dict =>
    some ⟨G.nodeList, G.edgeList, fun m =>
      match dlookup dict m with
      | some v => if m ∈ G.nodeList then v else G.val m
      | none => G.val m⟩

/-- The iteration loop of smooth_graph: n passes applied in order to the
copy of the input graph. -/
def smoothIter (G : MeshGraph) (tgts : List Nat) (k : Nat) : Nat → Option MeshGraph
  | 0 => some G
  | n + 1 =>
    match smoothIter G tgts k n with
    | none => none
    | some H => smooth_pass H tgts k

/-- smooth_graph of source lines 180 to 193: the target list is fixed up
front from the input graph, the graph is copied, and n_its smoothing
iterations are run. -/
def smooth_graph (G : MeshGraph) (nodes : NodesArg) (n_its kernel_size : Nat) :
    Option MeshGraph :=
  smoothIter G (smoothTargets G nodes) kernel_size n_its

/-- A two node graph with one edge and constant value 1, used as a
concrete instance. -/
def Gpair : MeshGraph := ⟨[0, 1], [(0, 1)], fun _ => some 1⟩

/-- A one node graph, used to exercise a seed outside the graph. -/
def Gsingle : MeshGraph := ⟨[0], [], fun _ => some 0⟩

/-- The path graph on 0, 1, 2 with constant value 0. -/
def Gpath : MeshGraph := ⟨[0, 1, 2], [(0, 1), (1, 2)], fun _ => some 0⟩

/-- A star around node 0 whose first inserted neighbour 1 carries NaN
while neighbour 2 carries the present value 5. -/
def Gnanfirst : MeshGraph :=
  ⟨[0, 1, 2], [(0, 1), (0, 2)],
    fun n => if n = 1 then none else if n = 2 then some 5 else some 0⟩

/-- A graph whose single node 0 is isolated, an empty neighbourhood. -/
def Giso : MeshGraph := ⟨[0], [], fun _ => some 1⟩

/-! Lemmas about the dict model. -/

theorem dlookup_dinsert (d : NDict) (k : Nat) (v : Val) (m : Nat) :
    dlookup (dinsert d k v) m = if m = k then some v else dlookup d m := by
  induction d with
  | nil => simp [dinsert, dlookup]
  | cons hd tl ih =>
    obtain ⟨k₀, v₀⟩ := hd
    by_cases hk : k = k₀
    · subst hk
      simp only [dinsert, if_pos rfl, dlookup]
      by_cases hm : m = k <;> simp [hm]
    · simp only [dinsert, if_neg hk, dlookup, ih]
      by_cases hm₀ : m = k₀
      · subst hm₀
        simp [Ne.symm hk]
      · simp [hm₀]

theorem dkeys_dinsert (d : NDict) (k : Nat) (v : Val) :
    dkeys (dinsert d k v) = if k ∈ dkeys d then dkeys d else dkeys d ++ [k] := by
  induction d with
  | nil => simp [dinsert, dkeys]
  | cons hd tl ih =>
    obtain ⟨k₀, v₀⟩ := hd
    by_cases hk : k = k₀
    · subst hk
      simp [dinsert, dkeys]
    · simp only [dinsert, if_neg hk, dkeys, List.map_cons]
      have : (k ∈ k₀ :: dkeys tl) = (k ∈ dkeys tl) := by
        simp [List.mem_cons, hk]
      simp only [dkeys] at ih ⊢
      rw [ih]
      by_cases hmem : k ∈ tl.map Prod.fst <;> simp [hmem, hk]

theorem nodup_dkeys_dinsert (d : NDict) (k : Nat) (v : Val)
    (h : (dkeys d).Nodup) : (dkeys (dinsert d k v)).Nodup := by
  rw [dkeys_dinsert]
  by_cases hmem : k ∈ dkeys d
  · simpa [hmem]
  · simp only [hmem, if_false]
    exact List.Nodup.append h (List.nodup_singleton k) (by simpa using hmem)

theorem nodup_dkeys_foldl_dinsert (l : List (Nat × Val)) (acc : NDict)
    (h : (dkeys acc).Nodup) :
    (dkeys (l.foldl (fun acc kv => dinsert acc kv.1 kv.2) acc)).Nodup := by
  induction l generalizing acc with
  | nil => simpa
  | cons hd tl ih => exact ih _ (nodup_dkeys_dinsert _ _ _ h)

theorem nodup_dkeys_dictOfPairs (l : List (Nat × Val)) :
    (dkeys (dictOfPairs l)).Nodup :=
  nodup_dkeys_foldl_dinsert l [] (by simp [dkeys])

theorem dinsert_mem_self (d : NDict) (k : Nat) (v : Val)
    (hmem : (k, v) ∈ d) (h : (dkeys d).Nodup) : dinsert d k v = d := by
  induction d with
  | nil => cases hmem
  | cons hd tl ih =>
    obtain ⟨k₀, v₀⟩ := hd
    rcases List.mem_cons.mp hmem with heq | htl
    · obtain ⟨h1, h2⟩ := Prod.mk.injEq .. ▸ heq
      subst h1; subst h2
      simp [dinsert]
    · rw [dkeys, List.map_cons, List.nodup_cons] at h
      have hk : k ≠ k₀ := by
        intro hc
        have hmem2 : k ∈ List.map Prod.fst tl := List.mem_map_of_mem Prod.fst htl
        rw [hc] at hmem2
        exact h.1 hmem2
      simp only [dinsert, if_neg hk]
      rw [ih htl (by rw [dkeys]; exact h.2)]

theorem foldl_dinsert_subset_self (d : NDict) (l : List (Nat × Val))
    (hsub : ∀ kv ∈ l, kv ∈ d) (h : (dkeys d).Nodup) :
    l.foldl (fun acc kv => dinsert acc kv.1 kv.2) d = d := by
  induction l with
  | nil => rfl
  | cons hd tl ih =>
    simp only [List.foldl_cons]
    rw [dinsert_mem_self d hd.1 hd.2 (hsub hd (by simp)) h]
    exact ih (fun kv hkv => hsub kv (by simp [hkv]))

theorem dupdate_self (d : NDict) (h : (dkeys d).Nodup) : dupdate d d = d :=
  foldl_dinsert_subset_self d d (fun _ hkv => hkv) h

theorem dinsert_not_mem (d : NDict) (k : Nat) (v : Val)
    (h : k ∉ dkeys d) : dinsert d k v = d ++ [(k, v)] := by
  induction d with
  | nil => simp [dinsert]
  | cons hd tl ih =>
    obtain ⟨k₀, v₀⟩ := hd
    simp only [dkeys, List.map_cons, List.mem_cons] at h
    push_neg at h
    simp only [dinsert, if_neg h.1, List.cons_append]
    rw [ih (by rw [dkeys]; exact h.2)]

theorem foldl_dinsert_disjoint (d acc : NDict)
    (h : (dkeys acc ++ dkeys d).Nodup) :
    d.foldl (fun a kv => dinsert a kv.1 kv.2) acc = acc ++ d := by
  induction d generalizing acc with
  | nil => simp
  | cons hd tl ih =>
    obtain ⟨k, v⟩ := hd
    have hnot : k ∉ dkeys acc := by
      intro hc
      rw [List.nodup_append] at h
      exact h.2.2 hc (by simp [dkeys])
    simp only [List.foldl_cons]
    rw [dinsert_not_mem acc k v hnot]
    have : dkeys (acc ++ [(k, v)]) ++ dkeys tl = dkeys acc ++ dkeys ((k, v) :: tl) := by
      simp [dkeys]
    rw [ih (acc ++ [(k, v)]) (this ▸ h)]
    simp

theorem dupdate_nil (d : NDict) (h : (dkeys d).Nodup) : dupdate [] d = d := by
  have := foldl_dinsert_disjoint d [] (by simpa [dkeys])
  simpa [dupdate] using this

theorem get_neighbours_nodup_keys (G : MeshGraph) (nodes : List Nat) (d : NDict)
    (h : get_neighbours_and_vals G nodes = some d) : (dkeys d).Nodup := by
  unfold get_neighbours_and_vals at h
  split at h
  · exact (Option.some.injEq .. ▸ h) ▸ nodup_dkeys_dictOfPairs _
  · cases h

theorem multiAux_fixed (G : MeshGraph) (nodes : List Nat) (d : NDict)
    (hd : get_neighbours_and_vals G nodes = some d) (hn : (dkeys d).Nodup) :
    ∀ j, multiAux G nodes j d = some d := by
  intro j
  induction j with
  | zero => rfl
  | succ j ih =>
    simp only [multiAux, hd]
    rw [dupdate_self d hn]
    exact ih

/-- C1: for every graph, every seed set and every hop count k of at
least 1, get_multi_neighbours_and_vals re-expands the same original seed
set on each iteration and merges into one accumulating dict keyed by
neighbour id, so its result equals the single one hop result of
get_neighbours_and_vals; in particular a hop count above 1 with a static
seed set reaches no nodes farther than hop count 1. -/
theorem get_multi_eq_single_hop (G : MeshGraph) (nodes : List Nat) (k : Nat)
    (hk : 1 ≤ k) :
    get_multi_neighbours_and_vals G nodes k = get_neighbours_and_vals G nodes := by
  obtain ⟨j, rfl⟩ : ∃ j, k = j + 1 := ⟨k - 1, by omega⟩
  unfold get_multi_neighbours_and_vals
  cases hget : get_neighbours_and_vals G nodes with
  | none => simp only [multiAux, hget]
  | some d =>
    have hn : (dkeys d).Nodup := get_neighbours_nodup_keys G nodes d hget
    simp only [multiAux, hget]
    rw [dupdate_nil d hn]
    exact multiAux_fixed G nodes d hget hn j

/-- Witness for C1 at a concrete graph, seed set and hop count. -/
theorem get_multi_eq_single_hop_witness :
    1 ≤ 3 ∧ get_multi_neighbours_and_vals Gpath [0, 1] 3
      = get_neighbours_and_vals Gpath [0, 1] :=
  ⟨by decide, get_multi_eq_single_hop Gpath [0, 1] 3 (by decide)⟩

/-- C5 counterexample: a seed outside the graph does not yield an empty
mapping without error; G.adj raises KeyError, modelled as none, so the
claim fails at the one node graph with seed list containing 1. -/
theorem get_neighbours_absent_seed_raises :
    get_neighbours_and_vals Gsingle [1] = none := by decide

/-- C5 amended: for every graph and every seed set all of whose seeds
are present in the graph, get_neighbours_and_vals returns a possibly
empty mapping without raising; a seed absent from the graph instead
makes the call raise KeyError. -/
theorem get_neighbours_total_on_present_seeds (G : MeshGraph) (nodes : List Nat)
    (h : ∀ n ∈ nodes, n ∈ G.nodeList) :
    ∃ d, get_neighbours_and_vals G nodes = some d := by
  unfold get_neighbours_and_vals
  rw [if_pos h]
  exact ⟨_, rfl⟩

/-- Witness for the amended C5 at a concrete graph and seed set. -/
theorem get_neighbours_total_on_present_seeds_witness :
    (∀ n ∈ [0, 1], n ∈ Gpair.nodeList)
      ∧ ∃ d, get_neighbours_and_vals Gpair [0, 1] = some d :=
  ⟨by decide, get_neighbours_total_on_present_seeds Gpair [0, 1] (by decide)⟩

/-- C2 (code bug): with the whole node set 0, 1, 2 of the path graph
passed as the region, node 1 has no neighbour outside the region, yet
the source marks every node a border node, because it intersects the
neighbour set with the ambient global label_coords (here the empty
list) instead of the passed region parameter; the specified border
predicate over the passed region disagrees. -/
theorem border_reads_ambient_global :
    is_node_on_region_border Gpath [] [0, 1, 2] 1 = some true
    ∧ is_border_spec Gpath [0, 1, 2] 1 = false
    ∧ find_region_border Gpath [] [0, 1, 2] = some [0, 1, 2]
    ∧ is_node_on_region_border Gpath [0, 1, 2] [] 1 = some false := by decide

/-- C3 (code bug): on the graph whose single node 0 is isolated, the
queried neighbourhood is empty, and max_neighbour calls Python max on an
empty dict, which raises ValueError, so nodes_gradient_step crashes
instead of keeping the node in place; smooth_graph, by contrast, does
assign the missing value to the node as the claim states. -/
theorem gradient_step_raises_on_empty_neighbourhood :
    max_neighbour Giso 0 1 = none
    ∧ nodes_gradient_step Giso [0] 1 = none
    ∧ (smooth_pass Giso [0] 1).map (fun H => H.val 0) = some none := by decide

/-- C6 (code bug): on the star around node 0 whose first inserted
neighbour 1 carries NaN while neighbour 2 carries the present value 5,
max_neighbour selects neighbour 1 with the missing value, because
Python max starts from the first dict entry and no comparison against
NaN ever replaces it; so a missing value is selected as the maximum
although a present value exists in the neighbourhood. -/
theorem max_neighbour_selects_missing_value :
    max_neighbour Gnanfirst 0 1 = some (1, none)
    ∧ (get_neighbours_and_vals Gnanfirst [0]).map (fun d => dlookup d 2)
      = some (some (some 5)) := by decide

/-- C9: expand_nodes with stepsize 0 returns the original node list
unchanged together with an empty collection of newly added nodes,
regardless of the ignore missing flag. -/
theorem expand_nodes_stepsize_zero (G : MeshGraph) (nodes : List Nat) (b : Bool) :
    expand_nodes G nodes 0 b = some (nodes, []) := by
  have hfil : nodes.filter (fun n => decide (n ∉ nodes)) = [] := by
    rw [List.filter_eq_nil_iff]
    intro a ha
    simp [ha]
  simp only [expand_nodes, expandAux]
  rw [hfil]
  rfl

theorem expandAux_appends (G : MeshGraph) (b : Bool) :
    ∀ (s : Nat) (acc r : List Nat), expandAux G b s acc = some r → ∃ t, r = acc ++ t := by
  intro s
  induction s with
  | zero =>
    intro acc r h
    exact ⟨[], by simpa [expandAux] using h.symm⟩
  | succ s ih =>
    intro acc r h
    unfold expandAux at h
    cases hget : get_neighbours_and_vals G acc with
    | none => rw [hget] at h; cases h
    | some d =>
      rw [hget] at h
      obtain ⟨t, ht⟩ := ih _ r h
      exact ⟨_, by rw [ht, List.append_assoc]⟩

/-- C8 counterexample: the statement nodes += neighbours extends the
list object of the caller in place, so after expand_nodes on the two
node graph with seed list containing only 0, the list of the caller has
become the first result, which differs from the passed list; the claim
that expand_nodes leaves the node list of the caller unchanged fails. -/
theorem expand_nodes_mutates_caller_list :
    expand_nodes_caller_list Gpair [0] 1 false = some [0, 1]
      ∧ [0, 1] ≠ [0] := by decide

/-- C8 amended: the neighbourhood, region and gradient operations never
mutate the graph, modelled here by returning fresh values from an
unchanged input; the one exception to argument purity is expand_nodes,
whose in place list extension leaves the list of the caller equal to the
first result, which is always the original list with the neighbour ids
of each iteration appended. -/
theorem expand_nodes_extends_caller_list (G : MeshGraph) (nodes : List Nat)
    (stepsize : Nat) (ignore_nans : Bool) (r : List Nat)
    (h : expand_nodes_caller_list G nodes stepsize ignore_nans = some r) :
    ∃ t, r = nodes ++ t := by
  unfold expand_nodes_caller_list expand_nodes at h
  cases haux : expandAux G ignore_nans stepsize nodes with
  | none => rw [haux] at h; cases h
  | some final =>
    rw [haux] at h
    simp only [Option.map_some] at h
    obtain rfl : final = r := by simpa using h
    exact expandAux_appends G ignore_nans stepsize nodes final haux

/-- Witness for the amended C8 at a concrete graph and seed list. -/
theorem expand_nodes_extends_caller_list_witness :
    expand_nodes_caller_list Gpair [0] 1 false = some [0, 1]
      ∧ ∃ t, [0, 1] = [0] ++ t :=
  ⟨by decide, expand_nodes_extends_caller_list Gpair [0] 1 false [0, 1] (by decide)⟩

theorem multiAux_isSome (G : MeshGraph) (nodes : List Nat) (d₀ : NDict)
    (hd : get_neighbours_and_vals G nodes = some d₀) :
    ∀ (j : Nat) (acc : NDict), ∃ r, multiAux G nodes j acc = some r := by
  intro j
  induction j with
  | zero => exact fun acc => ⟨acc, rfl⟩
  | succ j ih =>
    intro acc
    simp only [multiAux, hd]
    exact ih _

theorem get_multi_isSome (G : MeshGraph) (n : Nat) (k : Nat)
    (hn : n ∈ G.nodeList) :
    ∃ d, get_multi_neighbours_and_vals G [n] k = some d := by
  have hd : ∃ d₀, get_neighbours_and_vals G [n] = some d₀ :=
    get_neighbours_total_on_present_seeds G [n] (by simpa using hn)
  obtain ⟨d₀, hd₀⟩ := hd
  exact multiAux_isSome G [n] d₀ hd₀ k []

theorem smoothDictAux_spec (G : MeshGraph) (k : Nat) :
    ∀ (ns : List Nat) (acc : NDict), (∀ n ∈ ns, n ∈ G.nodeList) →
      ∃ dict, smoothDictAux G k ns acc = some dict
        ∧ ∀ m, dlookup dict m
            = if m ∈ ns then some (meanAt G k m) else dlookup acc m := by
  intro ns
  induction ns with
  | nil =>
    intro acc _
    exact ⟨acc, rfl, fun m => by simp⟩
  | cons n ns ih =>
    intro acc hpres
    obtain ⟨d, hd⟩ := get_multi_isSome G n k (hpres n (by simp))
    have hmean : nanmean (d.map Prod.snd) = meanAt G k n := by
      unfold meanAt
      rw [hd]
      rfl
    obtain ⟨dict, hdict, hlook⟩ :=
      ih (dinsert acc n (nanmean (d.map Prod.snd)))
        (fun x hx => hpres x (by simp [hx]))
    refine ⟨dict, ?_, ?_⟩
    · simp only [smoothDictAux, hd]
      exact hdict
    · intro m
      rw [hlook m, dlookup_dinsert]
      by_cases hm : m ∈ ns
      · simp [hm]
      · by_cases hmn : m = n
        · subst hmn
          simp [hm, hmean]
        · simp [hm, hmn]

theorem smooth_pass_spec (G : MeshGraph) (nodes : List Nat) (k : Nat)
    (h : ∀ n ∈ nodes, n ∈ G.nodeList) :
    ∃ G', smooth_pass G nodes k = some G'
      ∧ G'.nodeList = G.nodeList ∧ G'.edgeList = G.edgeList
      ∧ ∀ m, G'.val m = if m ∈ nodes then meanAt G k m else G.val m := by
  obtain ⟨dict, hdict, hlook⟩ := smoothDictAux_spec G k nodes [] h
  refine ⟨⟨G.nodeList, G.edgeList, fun m =>
      match dlookup dict m with
      | some v => if m ∈ G.nodeList then v else G.val m
      | none => G.val m⟩, ?_, rfl, rfl, ?_⟩
  · simp only [smooth_pass, hdict]
  · intro m
    simp only
    rw [hlook m]
    by_cases hm : m ∈ nodes
    · simp [hm, h m hm]
    · simp [hm, dlookup]

theorem smoothIter_inv (G : MeshGraph) (tgts : List Nat) (k : Nat)
    (h : ∀ n ∈ tgts, n ∈ G.nodeList) :
    ∀ j, ∃ H, smoothIter G tgts k j = some H
      ∧ H.nodeList = G.nodeList ∧ H.edgeList = G.edgeList := by
  intro j
  induction j with
  | zero => exact ⟨G, rfl, rfl, rfl⟩
  | succ j ih =>
    obtain ⟨H, hH, hnodes, hedges⟩ := ih
    obtain ⟨H', hH', hnodes', hedges', _⟩ :=
      smooth_pass_spec H tgts k (fun n hn => hnodes ▸ h n hn)
    refine ⟨H', ?_, hnodes ▸ hnodes', hedges ▸ hedges'⟩
    simp only [smoothIter, hH]
    exact hH'

/-- C7: for every graph, target argument, kernel radius and pass index,
the next smoothing pass of smooth_graph computes all replacement values
from the graph state left by the previous pass, via a staging dict
applied as one batch after all reads, so no value written during a pass
is read within the same pass; the result graph keeps the node and edge
structure of the input, which is itself left untouched since only the
copy is written. -/
theorem smooth_graph_batch_per_pass (G : MeshGraph) (arg : NodesArg) (k j : Nat)
    (h : ∀ n ∈ smoothTargets G arg, n ∈ G.nodeList) :
    ∃ H H', smooth_graph G arg j k = some H
      ∧ smooth_graph G arg (j + 1) k = some H'
      ∧ H.nodeList = G.nodeList ∧ H.edgeList = G.edgeList
      ∧ H'.nodeList = G.nodeList ∧ H'.edgeList = G.edgeList
      ∧ ∀ m, H'.val m
          = if m ∈ smoothTargets G arg then meanAt H k m else H.val m := by
  obtain ⟨H, hH, hnodes, hedges⟩ := smoothIter_inv G (smoothTargets G arg) k h j
  obtain ⟨H', hH', hnodes', hedges', hval'⟩ :=
    smooth_pass_spec H (smoothTargets G arg) k (fun n hn => hnodes ▸ h n hn)
  refine ⟨H, H', hH, ?_, hnodes, hedges, hnodes ▸ hnodes', hedges ▸ hedges', hval'⟩
  unfold smooth_graph
  simp only [smoothIter, hH]
  exact hH'

/-- Witness for C7 at a concrete graph, target argument and pass index. -/
theorem smooth_graph_batch_per_pass_witness :
    (∀ n ∈ smoothTargets Gpair NodesArg.noneArg, n ∈ Gpair.nodeList)
    ∧ ∃ H H', smooth_graph Gpair NodesArg.noneArg 0 1 = some H
      ∧ smooth_graph Gpair NodesArg.noneArg (0 + 1) 1 = some H'
      ∧ H.nodeList = Gpair.nodeList ∧ H.edgeList = Gpair.edgeList
      ∧ H'.nodeList = Gpair.nodeList ∧ H'.edgeList = Gpair.edgeList
      ∧ ∀ m, H'.val m
          = if m ∈ smoothTargets Gpair NodesArg.noneArg then meanAt H 1 m
            else H.val m :=
  ⟨by decide, smooth_graph_batch_per_pass Gpair NodesArg.noneArg 1 0 (by decide)⟩

/-- C10: smooth_graph treats any nodes argument that is not a Python
list, including None, a tuple, a set or a numpy array of ids, as if no
target set were specified and smooths every node of the graph; an empty
list is kept as is and smooths no node, leaving every value unchanged. -/
theorem smooth_graph_nonlist_smooths_all (G : MeshGraph) (arg : NodesArg)
    (n k : Nat) (h : ∀ l, arg ≠ NodesArg.listArg l) :
    smooth_graph G arg n k = smooth_graph G (NodesArg.listArg G.nodeList) n k
    ∧ ∃ G', smooth_graph G (NodesArg.listArg []) n k = some G'
        ∧ G'.nodeList = G.nodeList ∧ G'.edgeList = G.edgeList
        ∧ ∀ m, G'.val m = G.val m := by
  have htgt : smoothTargets G arg = G.nodeList := by
    cases arg with
    | listArg l => exact absurd rfl (h l)
    | noneArg => rfl
    | tupleArg l => rfl
    | setArg l => rfl
    | arrayArg l => rfl
  refine ⟨by unfold smooth_graph; rw [htgt]; rfl, ?_⟩
  induction n with
  | zero => exact ⟨G, rfl, rfl, rfl, fun m => rfl⟩
  | succ n ih =>
    obtain ⟨G', hG', hnodes, hedges, hval⟩ := ih
    obtain ⟨G'', hG'', hnodes'', hedges'', hval''⟩ :=
      smooth_pass_spec G' [] k (by simp)
    refine ⟨G'', ?_, hnodes ▸ hnodes'', hedges ▸ hedges'', ?_⟩
    · unfold smooth_graph at hG' ⊢
      simp only [smoothTargets] at hG' ⊢
      simp only [smoothIter, hG']
      exact hG''
    · intro m
      rw [hval'' m]
      simp [hval m]

/-- Witness for C10 at a concrete graph and a None target argument. -/
theorem smooth_graph_nonlist_smooths_all_witness :
    (∀ l, NodesArg.noneArg ≠ NodesArg.listArg l)
    ∧ (smooth_graph Gpair NodesArg.noneArg 1 1
        = smooth_graph Gpair (NodesArg.listArg Gpair.nodeList) 1 1
      ∧ ∃ G', smooth_graph Gpair (NodesArg.listArg []) 1 1 = some G'
          ∧ G'.nodeList = Gpair.nodeList ∧ G'.edgeList = Gpair.edgeList
          ∧ ∀ m, G'.val m = Gpair.val m) :=
  ⟨fun l h => NodesArg.noConfusion h,
    smooth_graph_nonlist_smooths_all Gpair NodesArg.noneArg 1 1
      (fun l h => NodesArg.noConfusion h)⟩

theorem mem_dedupFirstAux : ∀ (l seen : List Nat) (x : Nat),
    x ∈ dedupFirstAux l seen ↔ x ∈ l ∧ x ∉ seen := by
  intro l
  induction l with
  | nil => intro seen x; simp [dedupFirstAux]
  | cons a l ih =>
    intro seen x
    by_cases ha : a ∈ seen
    · rw [dedupFirstAux, if_pos ha, ih seen x]
      constructor
      · rintro ⟨h1, h2⟩
        exact ⟨List.mem_cons_of_mem a h1, h2⟩
      · rintro ⟨h1, h2⟩
        rcases List.mem_cons.mp h1 with rfl | h1
        · exact absurd ha h2
        · exact ⟨h1, h2⟩
    · rw [dedupFirstAux, if_neg ha, List.mem_cons, ih (a :: seen) x]
      simp only [List.mem_cons, not_or]
      constructor
      · rintro (rfl | ⟨h1, h2, h3⟩)
        · exact ⟨Or.inl rfl, ha⟩
        · exact ⟨Or.inr h1, h3⟩
      · rintro ⟨rfl | h1, h2⟩
        · exact Or.inl rfl
        · by_cases hxa : x = a
          · exact Or.inl hxa
          · exact Or.inr ⟨h1, hxa, h2⟩

theorem nodup_dedupFirstAux : ∀ (l seen : List Nat), (dedupFirstAux l seen).Nodup := by
  intro l
  induction l with
  | nil => intro seen; exact List.nodup_nil
  | cons a l ih =>
    intro seen
    by_cases ha : a ∈ seen
    · rw [dedupFirstAux, if_pos ha]
      exact ih seen
    · rw [dedupFirstAux, if_neg ha]
      refine List.nodup_cons.mpr ⟨?_, ih (a :: seen)⟩
      intro hmem
      exact ((mem_dedupFirstAux l (a :: seen) a).mp hmem).2 (by simp)

theorem mem_dedupFirst (l : List Nat) (x : Nat) : x ∈ dedupFirst l ↔ x ∈ l := by
  rw [dedupFirst, mem_dedupFirstAux]
  simp

theorem nodup_dedupFirst (l : List Nat) : (dedupFirst l).Nodup :=
  nodup_dedupFirstAux l []

theorem mem_np_unique (l : List Nat) (x : Nat) : x ∈ np_unique l ↔ x ∈ l := by
  rw [np_unique, List.mem_insertionSort]
  exact mem_dedupFirst l x

theorem nodup_np_unique (l : List Nat) : (np_unique l).Nodup :=
  (List.perm_insertionSort _ _).nodup_iff.mpr (nodup_dedupFirst l)

theorem mem_foldl_append (faces : List (List Nat)) (acc : List Nat) (x : Nat) :
    x ∈ faces.foldl (fun a row => a ++ row) acc
      ↔ x ∈ acc ∨ ∃ row ∈ faces, x ∈ row := by
  induction faces generalizing acc with
  | nil => simp
  | cons r rs ih =>
    simp only [List.foldl_cons, ih, List.mem_append, List.mem_cons]
    constructor
    · rintro ((h | h) | ⟨row, hrow, hx⟩)
      · exact Or.inl h
      · exact Or.inr ⟨r, Or.inl rfl, h⟩
      · exact Or.inr ⟨row, Or.inr hrow, hx⟩
    · rintro (h | ⟨row, rfl | hrow, hx⟩)
      · exact Or.inl (Or.inl h)
      · exact Or.inl (Or.inr hx)
      · exact Or.inr ⟨row, hrow, hx⟩

theorem mem_flattenFaces (faces : List (List Nat)) (x : Nat) :
    x ∈ flattenFaces faces ↔ ∃ row ∈ faces, x ∈ row := by
  rw [flattenFaces, mem_foldl_append]
  simp

theorem sameEdge_swap (u v a b : Nat) :
    sameEdge u v (a, b) ↔ sameEdge a b (u, v) := by
  unfold sameEdge
  constructor
  · rintro (h | h) <;> rw [Prod.mk.injEq] at h <;> obtain ⟨rfl, rfl⟩ := h
    · exact Or.inl rfl
    · exact Or.inr rfl
  · rintro (h | h) <;> rw [Prod.mk.injEq] at h <;> obtain ⟨rfl, rfl⟩ := h
    · exact Or.inl rfl
    · exact Or.inr rfl

theorem sameEdge_congr (u v a b : Nat) (e : Nat × Nat) (h : sameEdge u v e) :
    sameEdge a b e ↔ sameEdge a b (u, v) := by
  rcases h with h | h
  · rw [h]
  · rw [h]
    simp only [sameEdge, Prod.mk.injEq]
    tauto

theorem addNode_edgeList (G : MeshGraph) (n : Nat) :
    (addNode G n).edgeList = G.edgeList := by
  unfold addNode
  split <;> rfl

theorem mem_addNode (G : MeshGraph) (n m : Nat) :
    m ∈ (addNode G n).nodeList ↔ m ∈ G.nodeList ∨ m = n := by
  unfold addNode
  split
  · rename_i h
    constructor
    · exact Or.inl
    · rintro (hm | rfl)
      · exact hm
      · exact h
  · simp

theorem nodup_addNode (G : MeshGraph) (n : Nat) (h : G.nodeList.Nodup) :
    (addNode G n).nodeList.Nodup := by
  unfold addNode
  split
  · exact h
  · rename_i hn
    exact List.Nodup.append h (List.nodup_singleton n) (by simpa using hn)

theorem addNodesFrom_edgeList (ns : List Nat) (G : MeshGraph) :
    (addNodesFrom G ns).edgeList = G.edgeList := by
  induction ns generalizing G with
  | nil => rfl
  | cons a ns ih =>
    rw [addNodesFrom, List.foldl_cons]
    rw [show ns.foldl addNode (addNode G a) = addNodesFrom (addNode G a) ns from rfl]
    rw [ih, addNode_edgeList]

theorem mem_addNodesFrom (ns : List Nat) (G : MeshGraph) (m : Nat) :
    m ∈ (addNodesFrom G ns).nodeList ↔ m ∈ G.nodeList ∨ m ∈ ns := by
  induction ns generalizing G with
  | nil => simp [addNodesFrom]
  | cons a ns ih =>
    rw [addNodesFrom, List.foldl_cons]
    rw [show ns.foldl addNode (addNode G a) = addNodesFrom (addNode G a) ns from rfl]
    rw [ih, mem_addNode]
    simp only [List.mem_cons]
    tauto

theorem nodup_addNodesFrom (ns : List Nat) (G : MeshGraph) (h : G.nodeList.Nodup) :
    (addNodesFrom G ns).nodeList.Nodup := by
  induction ns generalizing G with
  | nil => exact h
  | cons a ns ih =>
    rw [addNodesFrom, List.foldl_cons]
    rw [show ns.foldl addNode (addNode G a) = addNodesFrom (addNode G a) ns from rfl]
    exact ih _ (nodup_addNode G a h)

theorem addNode2_edgeList (G : MeshGraph) (u v : Nat) :
    (addNode (addNode G u) v).edgeList = G.edgeList := by
  rw [addNode_edgeList, addNode_edgeList]

theorem addEdge_nodeList (G : MeshGraph) (u v : Nat) :
    (addEdge G u v).nodeList = (addNode (addNode G u) v).nodeList := by
  simp only [addEdge]
  split <;> rfl

theorem mem_addEdge_nodeList (G : MeshGraph) (u v m : Nat) :
    m ∈ (addEdge G u v).nodeList ↔ m ∈ G.nodeList ∨ m = u ∨ m = v := by
  rw [addEdge_nodeList, mem_addNode, mem_addNode, or_assoc]

theorem nodup_addEdge (G : MeshGraph) (u v : Nat) (h : G.nodeList.Nodup) :
    (addEdge G u v).nodeList.Nodup := by
  rw [addEdge_nodeList]
  exact nodup_addNode _ v (nodup_addNode G u h)

theorem hasEdge_addEdge (G : MeshGraph) (u v a b : Nat) :
    hasEdge (addEdge G u v) a b ↔ hasEdge G a b ∨ sameEdge a b (u, v) := by
  have h2 := addNode2_edgeList G u v
  simp only [addEdge]
  split
  · rename_i hex
    rw [h2] at hex
    unfold hasEdge
    rw [h2]
    constructor
    · exact Or.inl
    · rintro (h | h)
      · exact h
      · obtain ⟨e, he, hse⟩ := hex
        exact ⟨e, he, (sameEdge_congr u v a b e hse).mpr h⟩
  · unfold hasEdge
    simp only [h2]
    constructor
    · rintro ⟨e, he, hse⟩
      rcases List.mem_append.mp he with he | he
      · exact Or.inl ⟨e, he, hse⟩
      · rw [List.mem_singleton] at he
        subst he
        exact Or.inr hse
    · rintro (⟨e, he, hse⟩ | h)
      · exact ⟨e, List.mem_append_left _ he, hse⟩
      · exact ⟨(u, v), List.mem_append_right _ (by simp), h⟩

theorem edgesDistinct_addEdge (G : MeshGraph) (u v : Nat) (h : edgesDistinct G) :
    edgesDistinct (addEdge G u v) := by
  have h2 := addNode2_edgeList G u v
  simp only [addEdge]
  split
  · rename_i hex
    unfold edgesDistinct
    rw [h2]
    exact h
  · rename_i hex
    rw [h2] at hex
    unfold edgesDistinct
    simp only [h2]
    rw [List.pairwise_append]
    refine ⟨h, List.pairwise_singleton _ _, ?_⟩
    intro e he f hf
    rw [List.mem_singleton] at hf
    subst hf
    intro hse
    exact hex ⟨e, he, (sameEdge_swap u v e.1 e.2).mpr hse⟩

theorem hasEdge_addEdgesFrom (es : List (Nat × Nat)) (G : MeshGraph) (a b : Nat) :
    hasEdge (addEdgesFrom G es) a b
      ↔ hasEdge G a b ∨ ∃ e ∈ es, sameEdge a b e := by
  induction es generalizing G with
  | nil => simp [addEdgesFrom]
  | cons e es ih =>
    rw [addEdgesFrom, List.foldl_cons]
    rw [show es.foldl (fun g e => addEdge g e.1 e.2) (addEdge G e.1 e.2)
      = addEdgesFrom (addEdge G e.1 e.2) es from rfl]
    rw [ih, hasEdge_addEdge]
    simp only [List.mem_cons]
    constructor
    · rintro ((h | h) | ⟨f, hf, hsf⟩)
      · exact Or.inl h
      · exact Or.inr ⟨e, Or.inl rfl, h⟩
      · exact Or.inr ⟨f, Or.inr hf, hsf⟩
    · rintro (h | ⟨f, rfl | hf, hsf⟩)
      · exact Or.inl (Or.inl h)
      · exact Or.inl (Or.inr hsf)
      · exact Or.inr ⟨f, hf, hsf⟩

theorem mem_addEdgesFrom_nodeList (es : List (Nat × Nat)) (G : MeshGraph) (m : Nat) :
    m ∈ (addEdgesFrom G es).nodeList
      ↔ m ∈ G.nodeList ∨ ∃ e ∈ es, m = e.1 ∨ m = e.2 := by
  induction es generalizing G with
  | nil => simp [addEdgesFrom]
  | cons e es ih =>
    rw [addEdgesFrom, List.foldl_cons]
    rw [show es.foldl (fun g e => addEdge g e.1 e.2) (addEdge G e.1 e.2)
      = addEdgesFrom (addEdge G e.1 e.2) es from rfl]
    rw [ih, mem_addEdge_nodeList]
    simp only [List.mem_cons]
    constructor
    · rintro ((h | h) | ⟨f, hf, hm⟩)
      · exact Or.inl h
      · exact Or.inr ⟨e, Or.inl rfl, h⟩
      · exact Or.inr ⟨f, Or.inr hf, hm⟩
    · rintro (h | ⟨f, rfl | hf, hm⟩)
      · exact Or.inl (Or.inl h)
      · exact Or.inl (Or.inr hm)
      · exact Or.inr ⟨f, hf, hm⟩

theorem nodup_addEdgesFrom (es : List (Nat × Nat)) (G : MeshGraph)
    (h : G.nodeList.Nodup) : (addEdgesFrom G es).nodeList.Nodup := by
  induction es generalizing G with
  | nil => exact h
  | cons e es ih =>
    rw [addEdgesFrom, List.foldl_cons]
    rw [show es.foldl (fun g e => addEdge g e.1 e.2) (addEdge G e.1 e.2)
      = addEdgesFrom (addEdge G e.1 e.2) es from rfl]
    exact ih _ (nodup_addEdge G e.1 e.2 h)

theorem edgesDistinct_addEdgesFrom (es : List (Nat × Nat)) (G : MeshGraph)
    (h : edgesDistinct G) : edgesDistinct (addEdgesFrom G es) := by
  induction es generalizing G with
  | nil => exact h
  | cons e es ih =>
    rw [addEdgesFrom, List.foldl_cons]
    rw [show es.foldl (fun g e => addEdge g e.1 e.2) (addEdge G e.1 e.2)
      = addEdgesFrom (addEdge G e.1 e.2) es from rfl]
    exact ih _ (edgesDistinct_addEdge G e.1 e.2 h)

theorem combinations2_endpoints : ∀ (l : List Nat) (e : Nat × Nat),
    e ∈ combinations2 l → e.1 ∈ l ∧ e.2 ∈ l := by
  intro l
  induction l with
  | nil => intro e he; cases he
  | cons x xs ih =>
    intro e he
    rcases List.mem_append.mp he with he | he
    · obtain ⟨y, hy, rfl⟩ := List.mem_map.mp he
      exact ⟨by simp, List.mem_cons_of_mem x hy⟩
    · obtain ⟨h1, h2⟩ := ih e he
      exact ⟨List.mem_cons_of_mem x h1, List.mem_cons_of_mem x h2⟩

theorem combinations2_complete : ∀ (l : List Nat) (a b : Nat), a ≠ b →
    a ∈ l → b ∈ l → ∃ e ∈ combinations2 l, sameEdge a b e := by
  intro l
  induction l with
  | nil => intro a b _ ha _; cases ha
  | cons x xs ih =>
    intro a b hab ha hb
    simp only [combinations2]
    rcases List.mem_cons.mp ha with hax | hax
    · have hbx : b ∈ xs := by
        rcases List.mem_cons.mp hb with hbx | hbx
        · exact absurd (hax.trans hbx.symm) hab
        · exact hbx
      exact ⟨(x, b), List.mem_append_left _ (List.mem_map.mpr ⟨b, hbx, rfl⟩),
        Or.inl (by rw [hax])⟩
    · rcases List.mem_cons.mp hb with hbx | hbx
      · exact ⟨(x, a), List.mem_append_left _ (List.mem_map.mpr ⟨a, hax, rfl⟩),
          Or.inr (by rw [hbx])⟩
      · obtain ⟨e, he, hse⟩ := ih a b hab hax hbx
        exact ⟨e, List.mem_append_right _ he, hse⟩

theorem hasEdge_facesFold (faces : List (List Nat)) (G : MeshGraph) (a b : Nat) :
    hasEdge (faces.foldl (fun g row => addEdgesFrom g (combinations2 row)) G) a b
      ↔ hasEdge G a b ∨ ∃ row ∈ faces, ∃ e ∈ combinations2 row, sameEdge a b e := by
  induction faces generalizing G with
  | nil => simp
  | cons r rs ih =>
    rw [List.foldl_cons, ih, hasEdge_addEdgesFrom]
    simp only [List.mem_cons]
    constructor
    · rintro ((h | ⟨e, he, hse⟩) | ⟨row, hrow, hex⟩)
      · exact Or.inl h
      · exact Or.inr ⟨r, Or.inl rfl, e, he, hse⟩
      · exact Or.inr ⟨row, Or.inr hrow, hex⟩
    · rintro (h | ⟨row, hrow | hrow, hex⟩)
      · exact Or.inl (Or.inl h)
      · exact Or.inl (Or.inr (hrow ▸ hex))
      · exact Or.inr ⟨row, hrow, hex⟩

theorem mem_facesFold_nodeList (faces : List (List Nat)) (G : MeshGraph) (m : Nat) :
    m ∈ (faces.foldl (fun g row => addEdgesFrom g (combinations2 row)) G).nodeList
      ↔ m ∈ G.nodeList
        ∨ ∃ row ∈ faces, ∃ e ∈ combinations2 row, m = e.1 ∨ m = e.2 := by
  induction faces generalizing G with
  | nil => simp
  | cons r rs ih =>
    rw [List.foldl_cons, ih, mem_addEdgesFrom_nodeList]
    simp only [List.mem_cons]
    constructor
    · rintro ((h | ⟨e, he, hm⟩) | ⟨row, hrow, hex⟩)
      · exact Or.inl h
      · exact Or.inr ⟨r, Or.inl rfl, e, he, hm⟩
      · exact Or.inr ⟨row, Or.inr hrow, hex⟩
    · rintro (h | ⟨row, hrow | hrow, hex⟩)
      · exact Or.inl (Or.inl h)
      · exact Or.inl (Or.inr (hrow ▸ hex))
      · exact Or.inr ⟨row, hrow, hex⟩

theorem nodup_facesFold (faces : List (List Nat)) (G : MeshGraph)
    (h : G.nodeList.Nodup) :
    (faces.foldl (fun g row => addEdgesFrom g (combinations2 row)) G).nodeList.Nodup := by
  induction faces generalizing G with
  | nil => exact h
  | cons r rs ih =>
    rw [List.foldl_cons]
    exact ih _ (nodup_addEdgesFrom _ G h)

theorem edgesDistinct_facesFold (faces : List (List Nat)) (G : MeshGraph)
    (h : edgesDistinct G) :
    edgesDistinct (faces.foldl (fun g row => addEdgesFrom g (combinations2 row)) G) := by
  induction faces generalizing G with
  | nil => exact h
  | cons r rs ih =>
    rw [List.foldl_cons]
    exact ih _ (edgesDistinct_addEdgesFrom _ G h)

/-- C4: for every face table each of whose rows holds at least two
vertex ids, the graph built from it along the usual call path has
exactly one node per distinct vertex id appearing in the table, an edge
between two distinct vertices exists iff the two co-occur in at least
one face row (all pairwise combinations within a row, not only adjacent
pairs), and co-occurrence in several rows collapses to one unweighted
edge. -/
theorem builtGraph_nodes_and_edges (faces : List (List Nat))
    (hrows : ∀ row ∈ faces, 2 ≤ row.length) :
    (builtGraph faces).nodeList.Nodup
    ∧ (∀ n, n ∈ (builtGraph faces).nodeList ↔ ∃ row ∈ faces, n ∈ row)
    ∧ (∀ u v, u ≠ v →
        (hasEdge (builtGraph faces) u v ↔ ∃ row ∈ faces, u ∈ row ∧ v ∈ row))
    ∧ edgesDistinct (builtGraph faces) := by
  have hbase_nodes : ∀ m,
      m ∈ (addNodesFrom emptyMeshGraph (load_surface_info_nodes faces)).nodeList
        ↔ ∃ row ∈ faces, m ∈ row := by
    intro m
    rw [mem_addNodesFrom, load_surface_info_nodes, mem_np_unique, mem_flattenFaces]
    simp [emptyMeshGraph]
  have hbase_edges :
      (addNodesFrom emptyMeshGraph (load_surface_info_nodes faces)).edgeList = [] := by
    rw [addNodesFrom_edgeList]
    rfl
  have hbase_nodup :
      (addNodesFrom emptyMeshGraph (load_surface_info_nodes faces)).nodeList.Nodup :=
    nodup_addNodesFrom _ _ List.nodup_nil
  refine ⟨nodup_facesFold faces _ hbase_nodup, ?_, ?_, ?_⟩
  · intro n
    rw [builtGraph, nifti_to_graph, mem_facesFold_nodeList]
    constructor
    · rintro (h | ⟨row, hrow, e, he, hm⟩)
      · exact (hbase_nodes n).mp h
      · obtain ⟨h1, h2⟩ := combinations2_endpoints row e he
        rcases hm with rfl | rfl
        · exact ⟨row, hrow, h1⟩
        · exact ⟨row, hrow, h2⟩
    · intro h
      exact Or.inl ((hbase_nodes n).mpr h)
  · intro u v huv
    rw [builtGraph, nifti_to_graph, hasEdge_facesFold]
    constructor
    · rintro (h | ⟨row, hrow, e, he, hse⟩)
      · obtain ⟨e, he, _⟩ := h
        rw [hbase_edges] at he
        cases he
      · obtain ⟨h1, h2⟩ := combinations2_endpoints row e he
        rcases hse with he1 | he1
        · rw [he1] at h1 h2
          exact ⟨row, hrow, h1, h2⟩
        · rw [he1] at h1 h2
          exact ⟨row, hrow, h2, h1⟩
    · rintro ⟨row, hrow, hu, hv⟩
      obtain ⟨e, he, hse⟩ := combinations2_complete row u v huv hu hv
      exact Or.inr ⟨row, hrow, e, he, hse⟩
  · apply edgesDistinct_facesFold
    unfold edgesDistinct
    rw [hbase_edges]
    exact List.Pairwise.nil

/-- Witness for C4 at the concrete two row face table of the
specification scenario. -/
theorem builtGraph_nodes_and_edges_witness :
    (∀ row ∈ [[0, 1, 2], [1, 2, 3]], 2 ≤ row.length)
    ∧ ((builtGraph [[0, 1, 2], [1, 2, 3]]).nodeList.Nodup
      ∧ (∀ n, n ∈ (builtGraph [[0, 1, 2], [1, 2, 3]]).nodeList
          ↔ ∃ row ∈ [[0, 1, 2], [1, 2, 3]], n ∈ row)
      ∧ (∀ u v, u ≠ v → (hasEdge (builtGraph [[0, 1, 2], [1, 2, 3]]) u v
          ↔ ∃ row ∈ [[0, 1, 2], [1, 2, 3]], u ∈ row ∧ v ∈ row))
      ∧ edgesDistinct (builtGraph [[0, 1, 2], [1, 2, 3]])) :=
  ⟨by decide, builtGraph_nodes_and_edges [[0, 1, 2], [1, 2, 3]] (by decide)⟩
